import Mathlib

/-!
Shallow embedding of the release-detection core of `go-github-selfupdate`
(file `selfupdate/detect.go`), together with theorems checking the
specification's claims about it.

Strings are modelled as `List Char`.  The Go regular expression
`\d+\.\d+\.\d+` and the `blang/semver` parser and comparator are embedded
as executable Lean functions mirroring their sources.
-/

set_option linter.unnecessarySeqFocus false

namespace SelfUpdate

abbrev Str := List Char

/-- Length of the maximal run of ASCII digits at the head of the list
(the greedy `\d+` step of the regular expression engine). -/
def takeDigits : Str → Nat
  | [] => 0
  | c :: cs => if c.isDigit then takeDigits cs + 1 else 0

/-- Match `\.\d+` at the head of the list; on success return the number of
characters consumed and the remaining characters. -/
def dotDigits : Str → Option (Nat × Str)
  | [] => none
  | c :: r =>
    if c = '.' then
      let b := takeDigits r
      if b = 0 then none else some (1 + b, r.drop b)
    else none

/-- Match the regular expression `\d+\.\d+\.\d+` anchored at the head of
the list, returning the length of the match (greedy, as Go's `regexp`
behaves on this pattern). -/
def matchTripleAt (s : Str) : Option Nat :=
  let a := takeDigits s
  if a = 0 then none else
    match dotDigits (s.drop a) with
    | none => none
    | some (b, r1) =>
      match dotDigits r1 with
      | none => none
      | some (c, _) => some (a + b + c)

/-- Leftmost match of `\d+\.\d+\.\d+` in the list: the embedding of
`reVersion.FindStringIndex`, returning the start index and the length of
the match. -/
def findTriple : Str → Option (Nat × Nat)
  | [] => none
  | c :: rest =>
    match matchTripleAt (c :: rest) with
    | some l => some (0, l)
    | none =>
      match findTriple rest with
      | none => none
      | some (i, l) => some (i + 1, l)

/-- Split at the first occurrence of a separator character, as Go's
`strings.SplitN(s, sep, 2)` / `strings.IndexRune`: `none` when the
separator does not occur. -/
def splitFirst (sep : Char) : Str → Option (Str × Str)
  | [] => none
  | c :: r =>
    if c = sep then some ([], r)
    else
      match splitFirst sep r with
      | none => none
      | some (a, b) => some (c :: a, b)

/-- Split at every occurrence of a separator, as Go's `strings.Split`:
the result is always non-empty, and empty pieces are kept. -/
def splitAll (sep : Char) : Str → List Str
  | [] => [[]]
  | c :: r =>
    if c = sep then [] :: splitAll sep r
    else
      match splitAll sep r with
      | [] => [[c]]
      | a :: rest => (c :: a) :: rest

/-- Go `containsOnly(s, numbers)`: every character is an ASCII digit
(true on the empty string). -/
def onlyDigits (s : Str) : Bool := s.all Char.isDigit

/-- Go `hasLeadingZeroes`: more than one character and the first is `0`. -/
def hasLeadingZeroes (s : Str) : Bool := decide (1 < s.length) && s.head? == some '0'

/-- Character class used by `blang/semver` for pre-release and build
identifiers: ASCII letters, digits and the hyphen. -/
def isAlphanumHy (c : Char) : Bool := c.isAlphanum || c = '-'

/-- Numeric value of a digit string (most significant digit first). -/
def digitsVal : Str → Nat
  | [] => 0
  | c :: r => digitsValAux (c.toNat - 48) r
where
  digitsValAux (acc : Nat) : Str → Nat
    | [] => acc
    | c :: r => digitsValAux (acc * 10 + (c.toNat - 48)) r

/-- Parse a `major`/`minor`/`patch` component as `blang/semver` does:
only digits, no leading zeroes, non-empty, and within `uint64` range
(`strconv.ParseUint(s, 10, 64)` fails on the empty string and on
overflow). -/
def parseMainNum (s : Str) : Option Nat :=
  if !onlyDigits s then none
  else if hasLeadingZeroes s then none
  else if s = [] then none
  else if digitsVal s < 2 ^ 64 then some (digitsVal s) else none

/-- A pre-release identifier of `blang/semver`: numeric or alphanumeric. -/
inductive PRVersion where
  | num (n : Nat)
  | str (s : Str)
deriving DecidableEq, Repr

/-- Embedding of `semver.NewPRVersion`. -/
def newPRVersion (s : Str) : Option PRVersion :=
  if onlyDigits s then
    if hasLeadingZeroes s then none
    else if s = [] then none
    else if digitsVal s < 2 ^ 64 then some (.num (digitsVal s)) else none
  else if s.all isAlphanumHy then some (.str s) else none

/-- A parsed semantic version (`semver.Version` of `blang/semver`). -/
structure Semver where
  major : Nat
  minor : Nat
  patch : Nat
  pre : List PRVersion
  build : List Str
deriving DecidableEq, Repr

/-- Parse every pre-release identifier; fail when any one fails. -/
def parsePRList : List Str → Option (List PRVersion)
  | [] => some []
  | s :: rest =>
    match newPRVersion s, parsePRList rest with
    | some p, some ps => some (p :: ps)
    | _, _ => none

/-- Validate the build-metadata identifiers: each non-empty and made of
alphanumeric characters and hyphens. -/
def checkBuild (l : List Str) : Bool := l.all (fun s => !s.isEmpty && s.all isAlphanumHy)

/-- Embedding of `semver.Parse` (which `semver.Make` calls): split into
`major.minor.rest`, strip build metadata after the first `+`, strip the
pre-release part after the first `-`, and parse the pieces. -/
def semverMake (s : Str) : Option Semver :=
  if s = [] then none
  else
    match splitFirst '.' s with
    | none => none
    | some (majorStr, rest1) =>
      match splitFirst '.' rest1 with
      | none => none
      | some (minorStr, rest2) =>
        match parseMainNum majorStr, parseMainNum minorStr with
        | some major, some minor =>
          let (patchAndPre, buildStrs) :=
            match splitFirst '+' rest2 with
            | none => (rest2, [])
            | some (a, b) => (a, splitAll '.' b)
          let (patchStr, preStrs) :=
            match splitFirst '-' patchAndPre with
            | none => (patchAndPre, [])
            | some (a, b) => (a, splitAll '.' b)
          match parseMainNum patchStr, parsePRList preStrs with
          | some patch, some pres =>
            if checkBuild buildStrs then
              some ⟨major, minor, patch, pres, buildStrs⟩
            else none
          | _, _ => none
        | _, _ => none

/-- Three-way comparison on naturals, mirroring the `if v < o ...` chains
of `blang/semver`. -/
def natCmp (a b : Nat) : Ordering :=
  if a < b then .lt else if b < a then .gt else .eq

/-- Bytewise character comparison (all validated identifiers are ASCII,
so codepoint order coincides with Go's byte order). -/
def charCmp (a b : Char) : Ordering := natCmp a.toNat b.toNat

/-- Lexicographic comparison of lists by an element comparator, with a
strict prefix sorting first (the shape of Go's string comparison and of
the pre-release loop in `Version.Compare`). -/
def lexListCmp (cmp : α → α → Ordering) : List α → List α → Ordering
  | [], [] => .eq
  | [], _ :: _ => .lt
  | _ :: _, [] => .gt
  | a :: as, b :: bs => (cmp a b).then (lexListCmp cmp as bs)

/-- Go's lexicographic string comparison. -/
def charListCompare : Str → Str → Ordering := lexListCmp charCmp

/-- Embedding of `PRVersion.Compare`: numeric identifiers sort below
alphanumeric ones; numeric compare by value, alphanumeric by string
order. -/
def prCompare : PRVersion → PRVersion → Ordering
  | .num a, .num b => natCmp a b
  | .num _, .str _ => .lt
  | .str _, .num _ => .gt
  | .str a, .str b => charListCompare a b

/-- Pairwise comparison of pre-release identifier lists with the shorter
list sorting first, as the loop at the end of `Version.Compare`. -/
def prListCompare : List PRVersion → List PRVersion → Ordering :=
  lexListCmp prCompare

/-- The pre-release part of `Version.Compare`: a version without
pre-release identifiers is greater than one with them; otherwise compare
the identifier lists. -/
def preCompare (v o : List PRVersion) : Ordering :=
  match v, o with
  | [], [] => .eq
  | [], _ :: _ => .gt
  | _ :: _, [] => .lt
  | _ :: _, _ :: _ => prListCompare v o

/-- Embedding of `semver.Version.Compare`: major, then minor, then patch,
then the pre-release rule; build metadata is ignored. -/
def semverCompare (v o : Semver) : Ordering :=
  (natCmp v.major o.major).then
    ((natCmp v.minor o.minor).then
      ((natCmp v.patch o.patch).then (preCompare v.pre o.pre)))

/-- Embedding of `semver.Version.GTE` (`Compare(o) >= 0`). -/
def semverGTE (v o : Semver) : Bool :=
  match semverCompare v o with
  | .lt => false
  | _ => true

/-- A release asset as delivered by the hosting API
(`github.ReleaseAsset`; the getters unwrap missing fields to zero
values, so plain fields model them). -/
structure ReleaseAsset where
  name : Str
  id : Int
  browserDownloadURL : Str
  size : Int
deriving DecidableEq, Repr

/-- A release as delivered by the hosting API
(`github.RepositoryRelease`; the `publishedAt` timestamp is omitted, no
claim concerns it). -/
structure RepositoryRelease where
  tagName : Str
  draft : Bool
  prerelease : Bool
  name : Str
  body : Str
  htmlURL : Str
  assets : List ReleaseAsset
deriving DecidableEq, Repr

/-- The error values produced by the detection code, one constructor per
`fmt.Errorf` site in `detect.go`. -/
inductive DetectError where
  | tagMismatch (target : Str)
  | draftRelease (tag : Str)
  | preRelease (tag : Str)
  | notSemver (tag : Str)
  | invalidSemver (verText : Str)
  | noSuitableAsset (tag : Str)
  | wrapRelease (tag goos goarch : Str) (e : DetectError)
  | noRelease (goos goarch : Str)
  | findFailed (e : DetectError)
  | validationAssetMissing (name : Str)
deriving DecidableEq, Repr

/-- An asset-name filter: the decision `regexp.MatchString` makes for one
compiled filter pattern. -/
abbrev Filter := Str → Bool

/-- The candidate suffix list built at the top of `findReleaseAndAsset`:
separators `_` and `-`, the compression extensions, the `goos`/`goarch`
pair, and on Windows an extra `.exe` variant of each suffix. -/
def genSuffixes (goos goarch : Str) : List Str :=
  (['_', '-']).flatMap fun sep =>
    ([".zip", ".tar.gz", ".tgz", ".gzip", ".gz", ".tar.xz", ".xz", ""].map
        String.toList).flatMap fun ext =>
      let base := goos ++ [sep] ++ goarch ++ ext
      if goos = "windows".toList then
        [base, goos ++ [sep] ++ goarch ++ ".exe".toList ++ ext]
      else [base]

/-- The asset loop of `findAssetFromRelease`: the first asset that passes
the filter set (empty set, or at least one filter matches) and ends with
one of the candidate suffixes. -/
def findMatchingAsset (assets : List ReleaseAsset) (suffixes : List Str)
    (filters : List Filter) : Option ReleaseAsset :=
  match assets with
  | [] => none
  | a :: rest =>
    if (filters.isEmpty || filters.any fun f => f a.name)
        && suffixes.any (fun s => s.isSuffixOf a.name) then
      some a
    else findMatchingAsset rest suffixes filters

/-- Embedding of `findAssetFromRelease`: target-version equality check,
draft and pre-release exclusion on the latest path, version extraction
and parsing from the tag, then the asset loop. -/
def findAssetFromRelease (rel : RepositoryRelease) (suffixes : List Str)
    (targetVersion : Str) (filters : List Filter) :
    Except DetectError (ReleaseAsset × Semver) :=
  if targetVersion ≠ [] && targetVersion ≠ rel.tagName then
    .error (.tagMismatch targetVersion)
  else if targetVersion = [] && rel.draft then
    .error (.draftRelease rel.tagName)
  else if targetVersion = [] && rel.prerelease then
    .error (.preRelease rel.tagName)
  else
    match findTriple rel.tagName with
    | none => .error (.notSemver rel.tagName)
    | some (i, _) =>
      let verText := rel.tagName.drop i
      match semverMake verText with
      | none => .error (.invalidSemver verText)
      | some ver =>
        match findMatchingAsset rel.assets suffixes filters with
        | some asset => .ok (asset, ver)
        | none => .error (.noSuitableAsset rel.tagName)

/-- Embedding of `findValidationAsset`: the first asset with exactly the
requested name. -/
def findValidationAsset (rel : RepositoryRelease) (validationName : Str) :
    Option ReleaseAsset :=
  rel.assets.find? fun asset => asset.name = validationName

/-- The release loop of `findReleaseAndAsset`: any per-release error
aborts with a wrapped error; otherwise a release whose version is `GTE`
the best seen so far (or the first one) replaces the running best. -/
def findReleaseAndAssetLoop (targetVersion : Str) (filters : List Filter)
    (suffixes : List Str) (goos goarch : Str) :
    List RepositoryRelease →
    Option (RepositoryRelease × ReleaseAsset × Semver) →
    Except DetectError (Option (RepositoryRelease × ReleaseAsset × Semver))
  | [], st => .ok st
  | rel :: rest, st =>
    match findAssetFromRelease rel suffixes targetVersion filters with
    | .error e => .error (.wrapRelease rel.tagName goos goarch e)
    | .ok (a, v) =>
      let st' :=
        match st with
        | none => some (rel, a, v)
        | some (r0, a0, v0) =>
          if semverGTE v v0 then some (rel, a, v) else some (r0, a0, v0)
      findReleaseAndAssetLoop targetVersion filters suffixes goos goarch rest st'

/-- Embedding of `findReleaseAndAsset`. -/
def findReleaseAndAsset (rels : List RepositoryRelease) (targetVersion : Str)
    (filters : List Filter) (goos goarch : Str) :
    Except DetectError (RepositoryRelease × ReleaseAsset × Semver) :=
  match findReleaseAndAssetLoop targetVersion filters
      (genSuffixes goos goarch) goos goarch rels none with
  | .error e => .error e
  | .ok none => .error (.noRelease goos goarch)
  | .ok (some (rel, a, v)) => .ok (rel, a, v)

/-- The public result record (`Release` of the package; the `publishedAt`
timestamp is omitted, no claim concerns it). -/
structure Release where
  version : Semver
  assetURL : Str
  assetByteSize : Int
  assetID : Int
  validationAssetID : Int
  url : Str
  releaseNotes : Str
  name : Str
  repoOwner : Str
  repoName : Str
deriving DecidableEq, Repr

/-- Embedding of `Updater.DetectVersion` after the API fetch: the fetched
release list is passed in, the validator is modelled by its suffix
(`none` when no validator is configured). -/
def detectVersionFromReleases (rels : List RepositoryRelease)
    (version : Str) (filters : List Filter)
    (validatorSuffix : Option Str) (goos goarch owner name : Str) :
    Except DetectError Release :=
  match findReleaseAndAsset rels version filters goos goarch with
  | .error e => .error (.findFailed e)
  | .ok (rel, asset, ver) =>
    let release : Release :=
      { version := ver
        assetURL := asset.browserDownloadURL
        assetByteSize := asset.size
        assetID := asset.id
        validationAssetID := -1
        url := rel.htmlURL
        releaseNotes := rel.body
        name := rel.name
        repoOwner := owner
        repoName := name }
    match validatorSuffix with
    | none => .ok release
    | some sfx =>
      let validationName := asset.name ++ sfx
      match findValidationAsset rel validationName with
      | none => .error (.validationAssetMissing validationName)
      | some va => .ok { release with validationAssetID := va.id }

/-- The Version Parser applied to a tag on its own: locate the first
`\d+\.\d+\.\d+` match, drop everything before it, and parse with
`semver.Make`. -/
def parseTagVersion (tag : Str) : Option Semver :=
  match findTriple tag with
  | none => none
  | some (i, _) => semverMake (tag.drop i)

/-- Whether an `Except` value is a success. -/
def exceptIsOk : Except ε α → Bool
  | .ok _ => true
  | .error _ => false

/-- Every release in the list qualifies (its `findAssetFromRelease` call
succeeds). -/
def allQualify (rels : List RepositoryRelease) (sfx : List Str) (tv : Str)
    (fs : List Filter) : Bool :=
  rels.all fun rel => exceptIsOk (findAssetFromRelease rel sfx tv fs)

/-- The version `vj` is `GTE` every version parsed from a qualifying
release of the list. -/
def isVersionUB (vj : Semver) (rels : List RepositoryRelease)
    (sfx : List Str) (tv : Str) (fs : List Filter) : Bool :=
  rels.all fun rel =>
    match findAssetFromRelease rel sfx tv fs with
    | .ok (_, v') => semverGTE vj v'
    | .error _ => true

/-- No qualifying release of the list has a version comparing equal to
`vj`. -/
def noVersionTie (vj : Semver) (rels : List RepositoryRelease)
    (sfx : List Str) (tv : Str) (fs : List Filter) : Bool :=
  rels.all fun rel =>
    match findAssetFromRelease rel sfx tv fs with
    | .ok (_, v') =>
      match semverCompare v' vj with
      | .eq => false
      | _ => true
    | .error _ => true

/-- Sample platform identifiers and data used to instantiate the theorems
below on concrete inputs. -/
def lin : Str := "linux".toList

def amd : Str := "amd64".toList

def v100 : Semver := ⟨1, 0, 0, [], []⟩

def v120 : Semver := ⟨1, 2, 0, [], []⟩

def v1100 : Semver := ⟨1, 10, 0, [], []⟩

def v200 : Semver := ⟨2, 0, 0, [], []⟩

def sampleAsset : ReleaseAsset :=
  ⟨"foo_linux_amd64".toList, 1, "https://example.com/foo".toList, 1024⟩

def sampleAssetB : ReleaseAsset :=
  ⟨"bar_linux_amd64.tar.gz".toList, 2, "https://example.com/bar".toList, 2048⟩

def shaAsset : ReleaseAsset :=
  ⟨"foo_linux_amd64.sha256".toList, 99, "https://example.com/sha".toList, 64⟩

def toolExtraAsset : ReleaseAsset :=
  ⟨"tool-extra_linux_amd64".toList, 7, [], 7⟩

def relGood : RepositoryRelease :=
  ⟨"v1.0.0".toList, false, false, "one".toList, [], [], [sampleAsset]⟩

def relGood2 : RepositoryRelease :=
  ⟨"1.0.0".toList, false, false, "two".toList, [], [], [sampleAssetB]⟩

def relNightly : RepositoryRelease :=
  ⟨"nightly".toList, false, false, [], [], [], [sampleAsset]⟩

def relNightlyDraft : RepositoryRelease :=
  ⟨"nightly".toList, true, false, [], [], [], [sampleAsset]⟩

def relDraftPre : RepositoryRelease :=
  ⟨"v2.0.0".toList, true, true, [], [], [], [sampleAsset]⟩

def rel120 : RepositoryRelease :=
  ⟨"1.2.0".toList, false, false, [], [], [], [sampleAsset]⟩

def rel1100 : RepositoryRelease :=
  ⟨"1.10.0".toList, false, false, [], [], [], [sampleAssetB]⟩

def relMismatch : RepositoryRelease :=
  ⟨"v0.9.0".toList, false, false, [], [], [], [sampleAsset]⟩

def relWithSha : RepositoryRelease :=
  ⟨"v1.0.0".toList, false, false, [], [], [], [sampleAsset, shaAsset]⟩

/-- The decision the compiled pattern `^tool-core` makes on a name. -/
def filterToolCore : Filter := fun s => "tool-core".toList.isPrefixOf s

/-- The laws of a three-way comparator needed below: antisymmetric swap,
left congruence along `.eq`, and transitivity of `.lt`. -/
structure CmpLaws (cmp : α → α → Ordering) : Prop where
  symm : ∀ a b, cmp a b = (cmp b a).swap
  congrL : ∀ a b c, cmp a b = .eq → cmp b c = cmp a c
  ltTrans : ∀ a b c, cmp a b = .lt → cmp b c = .lt → cmp a c = .lt

theorem then_eq_lt {x y : Ordering} :
    x.then y = .lt ↔ x = .lt ∨ (x = .eq ∧ y = .lt) := by
  cases x <;> simp [Ordering.then]

theorem then_eq_eq {x y : Ordering} :
    x.then y = .eq ↔ x = .eq ∧ y = .eq := by
  cases x <;> simp [Ordering.then]

theorem then_eq_gt {x y : Ordering} :
    x.then y = .gt ↔ x = .gt ∨ (x = .eq ∧ y = .gt) := by
  cases x <;> simp [Ordering.then]

theorem swap_then (x y : Ordering) :
    (x.then y).swap = x.swap.then y.swap := by
  cases x <;> rfl

theorem swap_eq_lt (x : Ordering) : x.swap = .lt ↔ x = .gt := by
  cases x <;> simp [Ordering.swap]

theorem swap_eq_eq (x : Ordering) : x.swap = .eq ↔ x = .eq := by
  cases x <;> simp [Ordering.swap]

theorem swap_eq_gt (x : Ordering) : x.swap = .gt ↔ x = .lt := by
  cases x <;> simp [Ordering.swap]

namespace CmpLaws

variable {α : Type _} {cmp : α → α → Ordering}

theorem eq_symm (h : CmpLaws cmp) {a b : α} (hab : cmp a b = .eq) :
    cmp b a = .eq := by
  have := h.symm a b
  rw [hab] at this
  exact (swap_eq_eq _).mp this.symm

theorem congrR (h : CmpLaws cmp) {b c : α} (a : α) (hbc : cmp b c = .eq) :
    cmp a b = cmp a c := by
  have h1 := h.symm a b
  have h2 := h.symm a c
  rw [h1, h2, h.congrL b c a hbc]

theorem ltOfLtEq (h : CmpLaws cmp) {a b c : α}
    (hab : cmp a b = .lt) (hbc : cmp b c = .eq) : cmp a c = .lt := by
  rw [← h.congrR a hbc]; exact hab

theorem ltOfEqLt (h : CmpLaws cmp) {a b c : α}
    (hab : cmp a b = .eq) (hbc : cmp b c = .lt) : cmp a c = .lt := by
  rw [← h.congrL a b c hab]; exact hbc

theorem leTrans (h : CmpLaws cmp) {a b c : α}
    (hab : cmp a b ≠ .gt) (hbc : cmp b c ≠ .gt) : cmp a c ≠ .gt := by
  cases h1 : cmp a b with
  | gt => exact absurd h1 hab
  | eq => rw [← h.congrL a b c h1]; exact hbc
  | lt =>
    cases h2 : cmp b c with
    | gt => exact absurd h2 hbc
    | eq => rw [h.ltOfLtEq h1 h2]; simp
    | lt => rw [h.ltTrans a b c h1 h2]; simp

/-- Transport comparator laws along a map. -/
theorem comap (h : CmpLaws cmp) (f : β → α) :
    CmpLaws (fun a b => cmp (f a) (f b)) := by
  refine ⟨fun a b => h.symm _ _, fun a b c hab => h.congrL _ _ _ hab,
    fun a b c hab hbc => h.ltTrans _ _ _ hab hbc⟩

/-- Comparator laws are preserved by lexicographic composition. -/
theorem lex {g : α → α → Ordering} (hf : CmpLaws cmp) (hg : CmpLaws g) :
    CmpLaws (fun a b => (cmp a b).then (g a b)) := by
  refine ⟨?_, ?_, ?_⟩
  · intro a b
    rw [hf.symm a b, hg.symm a b, swap_then]
  · intro a b c hab
    rw [then_eq_eq] at hab
    rw [hf.congrL a b c hab.1, hg.congrL a b c hab.2]
  · intro a b c hab hbc
    rw [then_eq_lt] at hab hbc ⊢
    rcases hab with h1 | ⟨h1, h1'⟩ <;> rcases hbc with h2 | ⟨h2, h2'⟩
    · exact Or.inl (hf.ltTrans a b c h1 h2)
    · exact Or.inl (hf.ltOfLtEq h1 h2)
    · exact Or.inl (hf.ltOfEqLt h1 h2)
    · exact Or.inr ⟨(hf.congrL a b c h1) ▸ h2, hg.ltTrans a b c h1' h2'⟩

end CmpLaws

theorem natCmp_eq_lt {a b : Nat} : natCmp a b = .lt ↔ a < b := by
  unfold natCmp; split <;> rename_i h
  · simp [h]
  · split <;> rename_i h2 <;> simp <;> omega

theorem natCmp_eq_eq {a b : Nat} : natCmp a b = .eq ↔ a = b := by
  unfold natCmp; split <;> rename_i h
  · simp; omega
  · split <;> rename_i h2 <;> simp <;> omega

theorem natCmp_eq_gt {a b : Nat} : natCmp a b = .gt ↔ b < a := by
  unfold natCmp; split <;> rename_i h
  · simp; omega
  · split <;> rename_i h2 <;> simp <;> omega

theorem natCmp_laws : CmpLaws natCmp := by
  refine ⟨?_, ?_, ?_⟩
  · intro a b
    rcases Nat.lt_trichotomy a b with h | h | h
    · rw [natCmp_eq_lt.mpr h, (swap_eq_lt (natCmp b a)).mpr (natCmp_eq_gt.mpr h)]
    · subst h
      rw [natCmp_eq_eq.mpr rfl]
      rfl
    · rw [natCmp_eq_gt.mpr h, (swap_eq_gt (natCmp b a)).mpr (natCmp_eq_lt.mpr h)]
  · intro a b c hab
    rw [natCmp_eq_eq.mp hab]
  · intro a b c hab hbc
    exact natCmp_eq_lt.mpr (Nat.lt_trans (natCmp_eq_lt.mp hab) (natCmp_eq_lt.mp hbc))

theorem charCmp_laws : CmpLaws charCmp :=
  natCmp_laws.comap Char.toNat

theorem lexListCmp_laws {cmp : α → α → Ordering} (h : CmpLaws cmp) :
    CmpLaws (lexListCmp cmp) := by
  refine ⟨?_, ?_, ?_⟩
  · intro a
    induction a with
    | nil => intro b; cases b <;> rfl
    | cons x xs ih =>
      intro b
      cases b with
      | nil => rfl
      | cons y ys =>
        show (cmp x y).then (lexListCmp cmp xs ys) = _
        rw [h.symm x y, ih ys, ← swap_then]
        rfl
  · intro a
    induction a with
    | nil =>
      intro b c hab
      cases b with
      | nil => rfl
      | cons y ys => simp [lexListCmp] at hab
    | cons x xs ih =>
      intro b c hab
      cases b with
      | nil => simp [lexListCmp] at hab
      | cons y ys =>
        have hab' : (cmp x y).then (lexListCmp cmp xs ys) = .eq := hab
        rw [then_eq_eq] at hab'
        cases c with
        | nil => rfl
        | cons z zs =>
          show (cmp y z).then (lexListCmp cmp ys zs) =
            (cmp x z).then (lexListCmp cmp xs zs)
          rw [h.congrL x y z hab'.1, ih ys zs hab'.2]
  · intro a
    induction a with
    | nil =>
      intro b c hab hbc
      cases b with
      | nil => simp [lexListCmp] at hab
      | cons y ys =>
        cases c with
        | nil => simp [lexListCmp] at hbc
        | cons z zs => rfl
    | cons x xs ih =>
      intro b c hab hbc
      cases b with
      | nil => simp [lexListCmp] at hab
      | cons y ys =>
        cases c with
        | nil => simp [lexListCmp] at hbc
        | cons z zs =>
          have hab' : (cmp x y).then (lexListCmp cmp xs ys) = .lt := hab
          have hbc' : (cmp y z).then (lexListCmp cmp ys zs) = .lt := hbc
          show (cmp x z).then (lexListCmp cmp xs zs) = .lt
          rw [then_eq_lt] at hab' hbc' ⊢
          rcases hab' with h1 | ⟨h1, h1'⟩ <;> rcases hbc' with h2 | ⟨h2, h2'⟩
          · exact Or.inl (h.ltTrans x y z h1 h2)
          · exact Or.inl (h.ltOfLtEq h1 h2)
          · exact Or.inl (h.ltOfEqLt h1 h2)
          · exact Or.inr ⟨(h.congrL x y z h1) ▸ h2, ih ys zs h1' h2'⟩

theorem charListCompare_laws : CmpLaws charListCompare :=
  lexListCmp_laws charCmp_laws

theorem prCompare_laws : CmpLaws prCompare := by
  refine ⟨?_, ?_, ?_⟩
  · intro a b
    cases a <;> cases b <;>
      first
        | rfl
        | exact natCmp_laws.symm _ _
        | exact charListCompare_laws.symm _ _
  · intro a b c hab
    cases a <;> cases b <;> simp [prCompare] at hab ⊢ <;> cases c <;>
      simp [prCompare]
    · exact natCmp_laws.congrL _ _ _ hab
    · exact charListCompare_laws.congrL _ _ _ hab
  · intro a b c hab hbc
    cases a <;> cases b <;> simp [prCompare] at hab ⊢ <;> cases c <;>
      simp [prCompare] at hbc ⊢
    · exact natCmp_laws.ltTrans _ _ _ hab hbc
    · exact charListCompare_laws.ltTrans _ _ _ hab hbc

theorem prListCompare_laws : CmpLaws prListCompare :=
  lexListCmp_laws prCompare_laws

theorem preCompare_laws : CmpLaws preCompare := by
  refine ⟨?_, ?_, ?_⟩
  · intro a b
    cases a <;> cases b <;>
      first
        | rfl
        | exact prListCompare_laws.symm _ _
  · intro a b c hab
    cases a <;> cases b <;> simp [preCompare] at hab ⊢ <;> cases c <;>
      simp [preCompare]
    exact prListCompare_laws.congrL _ _ _ hab
  · intro a b c hab hbc
    cases a <;> cases b <;> simp [preCompare] at hab ⊢ <;> cases c <;>
      simp [preCompare] at hbc ⊢
    exact prListCompare_laws.ltTrans _ _ _ hab hbc

theorem semverCompare_laws : CmpLaws semverCompare := by
  have h1 := natCmp_laws.comap Semver.major
  have h2 := natCmp_laws.comap Semver.minor
  have h3 := natCmp_laws.comap Semver.patch
  have h4 := preCompare_laws.comap Semver.pre
  exact h1.lex (h2.lex (h3.lex h4))

theorem cmp_refl {cmp : α → α → Ordering} (h : CmpLaws cmp) (a : α) :
    cmp a a = .eq := by
  have hs := h.symm a a
  cases hv : cmp a a
  · rw [hv] at hs; exact absurd hs (by decide)
  · rfl
  · rw [hv] at hs; exact absurd hs (by decide)

theorem semverGTE_iff {v o : Semver} :
    semverGTE v o = true ↔ semverCompare v o ≠ .lt := by
  unfold semverGTE
  cases semverCompare v o <;> simp

theorem semverGTE_refl (v : Semver) : semverGTE v v = true := by
  rw [semverGTE_iff, cmp_refl semverCompare_laws v]
  simp

theorem semverGTE_total {v o : Semver} (h : semverGTE v o = false) :
    semverGTE o v = true := by
  rw [semverGTE_iff]
  have hlt : semverCompare v o = .lt := by
    revert h; unfold semverGTE; cases semverCompare v o <;> simp
  rw [semverCompare_laws.symm o v, hlt]
  simp [Ordering.swap]

theorem semverGTE_trans {a b c : Semver} (hab : semverGTE a b = true)
    (hbc : semverGTE b c = true) : semverGTE a c = true := by
  rw [semverGTE_iff] at hab hbc ⊢
  intro hlt
  have h1 : semverCompare b a ≠ .gt := by
    rw [semverCompare_laws.symm b a]
    cases hv : semverCompare a b <;> simp [hv, Ordering.swap] at hab ⊢
  have h2 : semverCompare c b ≠ .gt := by
    rw [semverCompare_laws.symm c b]
    cases hv : semverCompare b c <;> simp [hv, Ordering.swap] at hbc ⊢
  have h3 : semverCompare c a ≠ .gt := semverCompare_laws.leTrans h2 h1
  rw [semverCompare_laws.symm c a, hlt] at h3
  exact h3 rfl

theorem semverGTE_antisymm {a b : Semver} (hab : semverGTE a b = true)
    (hba : semverGTE b a = true) : semverCompare a b = .eq := by
  rw [semverGTE_iff] at hab hba
  rw [semverCompare_laws.symm a b] at hab ⊢
  cases hv : semverCompare b a <;> rw [hv] at hab <;>
    simp [Ordering.swap] at hab hba ⊢
  exact absurd hv hba

/-- A release qualifies when `findAssetFromRelease` succeeds on it. -/
def qualifies (rel : RepositoryRelease) (suffixes : List Str)
    (targetVersion : Str) (filters : List Filter) : Prop :=
  ∃ a v, findAssetFromRelease rel suffixes targetVersion filters = .ok (a, v)

theorem loop_append (tv : Str) (fs : List Filter) (sfx : List Str)
    (os ar : Str) (xs ys : List RepositoryRelease)
    (st : Option (RepositoryRelease × ReleaseAsset × Semver)) :
    findReleaseAndAssetLoop tv fs sfx os ar (xs ++ ys) st =
      match findReleaseAndAssetLoop tv fs sfx os ar xs st with
      | .error e => .error e
      | .ok st' => findReleaseAndAssetLoop tv fs sfx os ar ys st' := by
  induction xs generalizing st with
  | nil => rfl
  | cons x rest ih =>
    simp only [List.cons_append, findReleaseAndAssetLoop]
    cases hx : findAssetFromRelease x sfx tv fs with
    | error e => rfl
    | ok p =>
      rcases p with ⟨a, v⟩
      exact ih _

theorem loop_ok_qualifies {tv : Str} {fs : List Filter} {sfx : List Str}
    {os ar : Str} {rels : List RepositoryRelease}
    {st st' : Option (RepositoryRelease × ReleaseAsset × Semver)}
    (h : findReleaseAndAssetLoop tv fs sfx os ar rels st = .ok st') :
    ∀ rel ∈ rels, qualifies rel sfx tv fs := by
  induction rels generalizing st with
  | nil => intro rel hm; cases hm
  | cons x rest ih =>
    intro rel hm
    unfold findReleaseAndAssetLoop at h
    cases hx : findAssetFromRelease x sfx tv fs with
    | error e => rw [hx] at h; cases h
    | ok p =>
      rw [hx] at h
      rcases List.mem_cons.mp hm with hrel | hrel
      · subst hrel; exact ⟨p.1, p.2, by rw [hx]⟩
      · exact ih h rel hrel

theorem loop_state_src {tv : Str} {fs : List Filter} {sfx : List Str}
    {os ar : Str} {rels : List RepositoryRelease}
    {st st' : Option (RepositoryRelease × ReleaseAsset × Semver)}
    (h : findReleaseAndAssetLoop tv fs sfx os ar rels st = .ok st') :
    st' = st ∨ ∃ r a v, st' = some (r, a, v) ∧ r ∈ rels ∧
      findAssetFromRelease r sfx tv fs = .ok (a, v) := by
  induction rels generalizing st with
  | nil =>
    left
    unfold findReleaseAndAssetLoop at h
    exact (Except.ok.inj h).symm
  | cons x rest ih =>
    unfold findReleaseAndAssetLoop at h
    cases hx : findAssetFromRelease x sfx tv fs with
    | error e => rw [hx] at h; cases h
    | ok p =>
      rw [hx] at h
      rcases ih h with h1 | ⟨r, a, v, h1, h2, h3⟩
      · cases st with
        | none =>
          right
          exact ⟨x, p.1, p.2, by rw [h1], List.mem_cons_self x rest, by rw [hx]⟩
        | some q =>
          rcases q with ⟨r0, a0, v0⟩
          by_cases hg : semverGTE p.2 v0 = true
          · right
            refine ⟨x, p.1, p.2, ?_, List.mem_cons_self x rest, by rw [hx]⟩
            rw [h1]; simp [hg]
          · left
            rw [h1]
            simp [Bool.not_eq_true] at hg
            simp [hg]
      · right
        exact ⟨r, a, v, h1, List.mem_cons_of_mem x h2, h3⟩

theorem loop_no_replace {tv : Str} {fs : List Filter} {sfx : List Str}
    {os ar : Str} {rels : List RepositoryRelease}
    {r0 : RepositoryRelease} {a0 : ReleaseAsset} {v0 : Semver}
    {st' : Option (RepositoryRelease × ReleaseAsset × Semver)}
    (hlow : ∀ rel ∈ rels, ∀ a v,
      findAssetFromRelease rel sfx tv fs = .ok (a, v) → semverGTE v v0 = false)
    (h : findReleaseAndAssetLoop tv fs sfx os ar rels (some (r0, a0, v0)) = .ok st') :
    st' = some (r0, a0, v0) := by
  induction rels with
  | nil =>
    unfold findReleaseAndAssetLoop at h
    exact (Except.ok.inj h).symm
  | cons x rest ih =>
    unfold findReleaseAndAssetLoop at h
    cases hx : findAssetFromRelease x sfx tv fs with
    | error e => rw [hx] at h; cases h
    | ok p =>
      rw [hx] at h
      have hxlow := hlow x (List.mem_cons_self x rest) p.1 p.2 (by rw [hx])
      simp only [hxlow] at h
      exact ih (fun rel hm => hlow rel (List.mem_cons_of_mem x hm)) h

theorem loop_all_ok_from_some {tv : Str} {fs : List Filter} {sfx : List Str}
    {os ar : Str} {rels : List RepositoryRelease}
    (hq : ∀ rel ∈ rels, qualifies rel sfx tv fs) :
    ∀ r0 a0 v0, ∃ r a v,
      findReleaseAndAssetLoop tv fs sfx os ar rels (some (r0, a0, v0)) =
        .ok (some (r, a, v)) := by
  induction rels with
  | nil => exact fun r0 a0 v0 => ⟨r0, a0, v0, rfl⟩
  | cons x rest ih =>
    intro r0 a0 v0
    obtain ⟨a, v, hx⟩ := hq x (List.mem_cons_self x rest)
    have hq' : ∀ rel ∈ rest, qualifies rel sfx tv fs :=
      fun rel hm => hq rel (List.mem_cons_of_mem x hm)
    unfold findReleaseAndAssetLoop
    rw [hx]
    by_cases hg : semverGTE v v0 = true
    · simp only [hg, if_true]
      exact ih hq' x a v
    · simp only [Bool.not_eq_true] at hg
      simp only [hg]
      exact ih hq' r0 a0 v0

theorem loop_all_ok_from_none {tv : Str} {fs : List Filter} {sfx : List Str}
    {os ar : Str} {rels : List RepositoryRelease}
    (hq : ∀ rel ∈ rels, qualifies rel sfx tv fs) (hne : rels ≠ []) :
    ∃ r a v,
      findReleaseAndAssetLoop tv fs sfx os ar rels none = .ok (some (r, a, v)) := by
  cases rels with
  | nil => exact absurd rfl hne
  | cons x rest =>
    obtain ⟨a, v, hx⟩ := hq x (List.mem_cons_self x rest)
    have hq' : ∀ rel ∈ rest, qualifies rel sfx tv fs :=
      fun rel hm => hq rel (List.mem_cons_of_mem x hm)
    unfold findReleaseAndAssetLoop
    rw [hx]
    exact loop_all_ok_from_some hq' x a v

theorem loop_upper_bound {tv : Str} {fs : List Filter} {sfx : List Str}
    {os ar : Str} {rels : List RepositoryRelease}
    {st : Option (RepositoryRelease × ReleaseAsset × Semver)}
    {r : RepositoryRelease} {a : ReleaseAsset} {v : Semver}
    (h : findReleaseAndAssetLoop tv fs sfx os ar rels st = .ok (some (r, a, v))) :
    (∀ r0 a0 v0, st = some (r0, a0, v0) → semverGTE v v0 = true) ∧
      ∀ rel ∈ rels, ∀ a' v',
        findAssetFromRelease rel sfx tv fs = .ok (a', v') →
          semverGTE v v' = true := by
  induction rels generalizing st with
  | nil =>
    unfold findReleaseAndAssetLoop at h
    have hst : st = some (r, a, v) := Except.ok.inj h
    refine ⟨?_, fun rel hm => absurd hm (List.not_mem_nil rel)⟩
    intro r0 a0 v0 h0
    rw [h0] at hst
    cases hst
    exact semverGTE_refl v
  | cons x rest ih =>
    unfold findReleaseAndAssetLoop at h
    cases hx : findAssetFromRelease x sfx tv fs with
    | error e => rw [hx] at h; cases h
    | ok p =>
      rw [hx] at h
      rcases p with ⟨a1, v1⟩
      cases st with
      | none =>
        obtain ⟨hst, hub⟩ := ih h
        have hv1 : semverGTE v v1 = true := hst x a1 v1 rfl
        refine ⟨?_, ?_⟩
        · intro r0 a0 v0 h0
          cases h0
        intro rel hm a' v' h'
        rcases List.mem_cons.mp hm with hrel | hrel
        · subst hrel
          rw [hx] at h'
          obtain ⟨ha, hv⟩ := Prod.mk.injEq .. ▸ Except.ok.inj h'
          rw [← hv]
          exact hv1
        · exact hub rel hrel a' v' h'
      | some q =>
        rcases q with ⟨r0, a0, v0⟩
        by_cases hg : semverGTE v1 v0 = true
        · simp only [hg, if_true] at h
          obtain ⟨hst, hub⟩ := ih h
          have hv1 : semverGTE v v1 = true := hst x a1 v1 rfl
          refine ⟨?_, ?_⟩
          · intro r0' a0' v0' h0
            cases h0
            exact semverGTE_trans hv1 hg
          · intro rel hm a' v' h'
            rcases List.mem_cons.mp hm with hrel | hrel
            · subst hrel
              rw [hx] at h'
              obtain ⟨ha, hv⟩ := Prod.mk.injEq .. ▸ Except.ok.inj h'
              rw [← hv]
              exact hv1
            · exact hub rel hrel a' v' h'
        · simp only [Bool.not_eq_true] at hg
          simp only [hg] at h
          obtain ⟨hst, hub⟩ := ih h
          have hv0 : semverGTE v v0 = true := hst r0 a0 v0 rfl
          refine ⟨?_, ?_⟩
          · intro r0' a0' v0' h0
            cases h0
            exact hv0
          · intro rel hm a' v' h'
            rcases List.mem_cons.mp hm with hrel | hrel
            · subst hrel
              rw [hx] at h'
              obtain ⟨ha, hv⟩ := Prod.mk.injEq .. ▸ Except.ok.inj h'
              rw [← hv]
              exact semverGTE_trans hv0 (semverGTE_total hg)
            · exact hub rel hrel a' v' h'

theorem allQualify_iff {rels : List RepositoryRelease} {sfx : List Str}
    {tv : Str} {fs : List Filter} :
    allQualify rels sfx tv fs = true ↔
      ∀ rel ∈ rels, qualifies rel sfx tv fs := by
  unfold allQualify
  rw [List.all_eq_true]
  constructor
  · intro h rel hm
    have := h rel hm
    revert this
    cases hx : findAssetFromRelease rel sfx tv fs with
    | error e => simp [exceptIsOk]
    | ok p => exact fun _ => ⟨p.1, p.2, by rw [hx]⟩
  · intro h rel hm
    obtain ⟨a, v, hx⟩ := h rel hm
    rw [hx]
    rfl

theorem isVersionUB_iff {vj : Semver} {rels : List RepositoryRelease}
    {sfx : List Str} {tv : Str} {fs : List Filter} :
    isVersionUB vj rels sfx tv fs = true ↔
      ∀ rel ∈ rels, ∀ a' v',
        findAssetFromRelease rel sfx tv fs = .ok (a', v') →
          semverGTE vj v' = true := by
  unfold isVersionUB
  rw [List.all_eq_true]
  constructor
  · intro h rel hm a' v' hx
    have := h rel hm
    rw [hx] at this
    exact this
  · intro h rel hm
    cases hx : findAssetFromRelease rel sfx tv fs with
    | error e => rfl
    | ok p => exact h rel hm p.1 p.2 (by rw [hx])

theorem noVersionTie_iff {vj : Semver} {rels : List RepositoryRelease}
    {sfx : List Str} {tv : Str} {fs : List Filter} :
    noVersionTie vj rels sfx tv fs = true ↔
      ∀ rel ∈ rels, ∀ a' v',
        findAssetFromRelease rel sfx tv fs = .ok (a', v') →
          semverCompare v' vj ≠ .eq := by
  unfold noVersionTie
  rw [List.all_eq_true]
  constructor
  · intro h rel hm a' v' hx
    have h2 := h rel hm
    rw [hx] at h2
    intro heq
    simp [heq] at h2
  · intro h rel hm
    cases hx : findAssetFromRelease rel sfx tv fs with
    | error e => rfl
    | ok p =>
      rcases p with ⟨a1, v1⟩
      have h2 := h rel hm a1 v1 (by rw [hx])
      cases hcv : semverCompare v1 vj with
      | eq => exact absurd hcv h2
      | lt => simp [hcv]
      | gt => simp [hcv]

theorem findAsset_tagMismatch {rel : RepositoryRelease} {sfx : List Str}
    {tv : Str} {fs : List Filter} (h1 : tv ≠ []) (h2 : tv ≠ rel.tagName) :
    findAssetFromRelease rel sfx tv fs = .error (.tagMismatch tv) := by
  unfold findAssetFromRelease
  simp [h1, h2]

theorem findAsset_ok_notDraft {rel : RepositoryRelease} {sfx : List Str}
    {fs : List Filter} {p : ReleaseAsset × Semver}
    (h : findAssetFromRelease rel sfx [] fs = .ok p) :
    rel.draft = false ∧ rel.prerelease = false := by
  unfold findAssetFromRelease at h
  split at h
  · cases h
  · split at h
    · cases h
    · split at h
      · cases h
      · rename_i h1 h2 h3
        exact ⟨by simpa using h2, by simpa using h3⟩

theorem loop_mem_error {tv : Str} {fs : List Filter} {sfx : List Str}
    (os ar : Str) {rels : List RepositoryRelease} {rel : RepositoryRelease}
    {e0 : DetectError} (hmem : rel ∈ rels)
    (he : findAssetFromRelease rel sfx tv fs = .error e0) :
    ∀ st, ∃ e, findReleaseAndAssetLoop tv fs sfx os ar rels st = .error e := by
  induction rels with
  | nil => cases hmem
  | cons x rest ih =>
    intro st
    unfold findReleaseAndAssetLoop
    cases hx : findAssetFromRelease x sfx tv fs with
    | error e => exact ⟨_, rfl⟩
    | ok p =>
      rcases p with ⟨a, v⟩
      rcases List.mem_cons.mp hmem with hrel | hrel
      · subst hrel
        rw [hx] at he
        cases he
      · exact ih hrel _

/-- C9: For an empty release list, `findReleaseAndAsset` (and hence
`DetectVersion` when the fetch returns zero releases) returns the
"could not find any release" error; it does not return a release
record. -/
theorem claim9_empty_release_list (tv : Str) (fs : List Filter)
    (vs : Option Str) (os ar ow nm : Str) :
    findReleaseAndAsset [] tv fs os ar = .error (.noRelease os ar) ∧
      detectVersionFromReleases [] tv fs vs os ar ow nm =
        .error (.findFailed (.noRelease os ar)) :=
  ⟨rfl, rfl⟩

/-- C1: the code contradicts the claim: a release whose tag yields no
parseable version does not merely get skipped — it aborts the whole
selection with an error, even though the other release in the list
qualifies. -/
theorem claim1_code_aborts_on_skippable_release :
    qualifies relGood (genSuffixes lin amd) [] [] ∧
      findReleaseAndAsset [relNightly, relGood] [] [] lin amd =
        .error (.wrapRelease "nightly".toList lin amd
          (.notSemver "nightly".toList)) :=
  ⟨⟨sampleAsset, v100, rfl⟩, rfl⟩

/-- C10: with a non-empty target version, any release in the list whose
tag differs from the target makes the whole selection return an error,
even when another release matches the target exactly. -/
theorem claim10_mismatched_tag_aborts {rels : List RepositoryRelease}
    {tv : Str} {fs : List Filter} {os ar : Str} {rel : RepositoryRelease}
    (hne : tv ≠ []) (hmem : rel ∈ rels) (htag : tv ≠ rel.tagName) :
    ∃ e, findReleaseAndAsset rels tv fs os ar = .error e := by
  obtain ⟨e, he⟩ :=
    loop_mem_error os ar hmem (findAsset_tagMismatch hne htag) none
  refine ⟨e, ?_⟩
  unfold findReleaseAndAsset
  rw [he]

/-- C10 witness: a list holding an exact match for the target together
with one other release still fails as a whole. -/
theorem claim10_witness :
    relMismatch ∈ [relGood, relMismatch] ∧
      ∃ e, findReleaseAndAsset [relGood, relMismatch] "v1.0.0".toList []
        lin amd = .error e :=
  ⟨by decide,
    claim10_mismatched_tag_aborts (by decide)
      (by decide : relMismatch ∈ [relGood, relMismatch]) (by decide)⟩

/-- C5: on the latest path (empty target version), a draft or pre-release
release is never the selected release. -/
theorem claim5_no_draft_or_prerelease_selected
    {rels : List RepositoryRelease} {fs : List Filter} {os ar : Str}
    {r : RepositoryRelease} {a : ReleaseAsset} {v : Semver}
    (h : findReleaseAndAsset rels [] fs os ar = .ok (r, a, v)) :
    r.draft = false ∧ r.prerelease = false := by
  unfold findReleaseAndAsset at h
  cases hl : findReleaseAndAssetLoop [] fs (genSuffixes os ar) os ar rels none with
  | error e => rw [hl] at h; cases h
  | ok st =>
    rw [hl] at h
    cases st with
    | none => cases h
    | some q =>
      rcases q with ⟨r', a', v'⟩
      have hq : r' = r := by cases h; rfl
      subst hq
      rcases loop_state_src hl with h1 | ⟨r1, a1, v1, h1, h2, h3⟩
      · cases h1
      · have hr : r' = r1 := congrArg Prod.fst (Option.some.inj h1)
        rw [hr]
        exact findAsset_ok_notDraft h3

/-- C5 witness: a successful latest-path selection, whose selected
release therefore carries neither flag. -/
theorem claim5_witness :
    findReleaseAndAsset [relGood] [] [] lin amd =
      .ok (relGood, sampleAsset, v100) ∧
      relGood.draft = false ∧ relGood.prerelease = false :=
  ⟨rfl, claim5_no_draft_or_prerelease_selected (rfl :
    findReleaseAndAsset [relGood] [] [] lin amd = .ok (relGood, sampleAsset, v100))⟩

/-- C7: with a non-empty filter set, an asset whose name matches no
filter is never the asset picked by the asset loop, whatever its
suffix. -/
theorem claim7_filter_rejection {assets : List ReleaseAsset}
    {sfx : List Str} {fs : List Filter} {asset : ReleaseAsset}
    (hfs : fs ≠ []) (hnm : ∀ f ∈ fs, f asset.name = false) :
    findMatchingAsset assets sfx fs ≠ some asset := by
  induction assets with
  | nil => intro h; cases h
  | cons x rest ih =>
    unfold findMatchingAsset
    by_cases hc : ((fs.isEmpty || fs.any fun f => f x.name)
        && sfx.any (fun s => s.isSuffixOf x.name)) = true
    · rw [if_pos hc]
      intro h
      have hx : x = asset := Option.some.inj h
      subst hx
      rw [Bool.and_eq_true] at hc
      rcases Bool.or_eq_true _ _ |>.mp hc.1 with h1 | h1
      · rw [List.isEmpty_iff] at h1
        exact hfs h1
      · obtain ⟨f, hf, hfx⟩ := List.any_eq_true.mp h1
        rw [hnm f hf] at hfx
        cases hfx
    · rw [if_neg hc]
      exact ih

/-- C7 witness: with the filter set `^tool-core` the asset
`tool-extra_linux_amd64` is rejected although its suffix matches the
platform. -/
theorem claim7_witness :
    ("linux_amd64".toList.isSuffixOf toolExtraAsset.name = true) ∧
      findMatchingAsset [toolExtraAsset] (genSuffixes lin amd)
        [filterToolCore] ≠ some toolExtraAsset :=
  ⟨by decide,
    claim7_filter_rejection (List.cons_ne_nil _ _)
      (fun f hf => by
        rw [List.mem_singleton] at hf
        subst hf
        rfl)⟩

/-- C4 counterexample: a draft release whose tag equals the requested
target byte-for-byte and which carries a platform-matching asset is
nevertheless not selected, because the tag yields no parseable
version. -/
theorem claim4_counterexample :
    relNightlyDraft.tagName = "nightly".toList ∧
      relNightlyDraft.draft = true ∧
      findMatchingAsset relNightlyDraft.assets (genSuffixes lin amd) [] =
        some sampleAsset ∧
      findAssetFromRelease relNightlyDraft (genSuffixes lin amd)
        "nightly".toList [] = .error (.notSemver "nightly".toList) :=
  ⟨rfl, rfl, rfl, rfl⟩

/-- C4 (amended): with a non-empty target version a release is accepted
only if its tag equals the target byte-for-byte; the draft and
pre-release flags are never consulted; and a release with an exactly
equal tag, whose tag yields a parseable version, and which has a
matching asset, is selected even when it is a draft or pre-release. -/
theorem claim4_amended_exact_target (rel : RepositoryRelease)
    (sfx : List Str) (tv : Str) (fs : List Filter) (hne : tv ≠ []) :
    (∀ a v, findAssetFromRelease rel sfx tv fs = .ok (a, v) →
      rel.tagName = tv) ∧
    (∀ d p, findAssetFromRelease { rel with draft := d, prerelease := p }
      sfx tv fs = findAssetFromRelease rel sfx tv fs) ∧
    (rel.tagName = tv →
      ∀ i l, findTriple rel.tagName = some (i, l) →
      ∀ ver, semverMake (rel.tagName.drop i) = some ver →
      ∀ asset, findMatchingAsset rel.assets sfx fs = some asset →
      findAssetFromRelease rel sfx tv fs = .ok (asset, ver)) := by
  refine ⟨?_, ?_, ?_⟩
  · intro a v h
    by_contra htag
    rw [findAsset_tagMismatch hne (fun he => htag he.symm)] at h
    cases h
  · intro d p
    unfold findAssetFromRelease
    simp [hne]
  · intro htag i l hft ver hsm asset hfm
    subst htag
    unfold findAssetFromRelease
    simp [hne, hft, hsm, hfm]

/-- C4 witness: a release that is both draft and pre-release, with tag
equal to the non-empty target, parseable version and matching asset, is
selected. -/
theorem claim4_witness :
    ("v2.0.0".toList ≠ ([] : Str)) ∧
      relDraftPre.draft = true ∧ relDraftPre.prerelease = true ∧
      findAssetFromRelease relDraftPre (genSuffixes lin amd)
        "v2.0.0".toList [] = .ok (sampleAsset, v200) :=
  ⟨by decide, rfl, rfl,
    (claim4_amended_exact_target relDraftPre (genSuffixes lin amd)
        "v2.0.0".toList [] (by decide)).2.2 rfl 1 5 rfl v200 rfl
        sampleAsset rfl⟩

/-- C2 counterexample: two qualifying releases with equal maximal
versions; the selector returns the second of them, not the first. -/
theorem claim2_counterexample :
    findAssetFromRelease relGood2 (genSuffixes lin amd) [] [] =
      .ok (sampleAssetB, v100) ∧
      findAssetFromRelease relGood (genSuffixes lin amd) [] [] =
        .ok (sampleAsset, v100) ∧
      findReleaseAndAsset [relGood2, relGood] [] [] lin amd =
        .ok (relGood, sampleAsset, v100) ∧
      relGood ≠ relGood2 :=
  ⟨rfl, rfl, rfl, by decide⟩

/-- C2 (amended): the `GTE` tie-break keeps the LAST maximal release in
iteration order: if `relj` qualifies with a version `GTE` every
qualifying version of the list, and no release after `relj` ties that
version, then the selector returns `relj`. -/
theorem claim2_amended_last_tie_wins
    (tv os ar : Str) (fs : List Filter)
    (relsA relsB : List RepositoryRelease) (relj : RepositoryRelease)
    (aj : ReleaseAsset) (vj : Semver)
    (r : RepositoryRelease) (a : ReleaseAsset) (v : Semver)
    (hj : findAssetFromRelease relj (genSuffixes os ar) tv fs = .ok (aj, vj))
    (hmax : isVersionUB vj (relsA ++ relj :: relsB) (genSuffixes os ar)
      tv fs = true)
    (hlast : noVersionTie vj relsB (genSuffixes os ar) tv fs = true)
    (hrun : findReleaseAndAsset (relsA ++ relj :: relsB) tv fs os ar =
      .ok (r, a, v)) :
    r = relj ∧ a = aj ∧ v = vj := by
  unfold findReleaseAndAsset at hrun
  cases hl : findReleaseAndAssetLoop tv fs (genSuffixes os ar) os ar
      (relsA ++ relj :: relsB) none with
  | error e => rw [hl] at hrun; cases hrun
  | ok st =>
    rw [hl] at hrun
    cases st with
    | none => cases hrun
    | some q =>
      rcases q with ⟨r0, a0, v0⟩
      cases hrun
      rw [loop_append] at hl
      cases hA : findReleaseAndAssetLoop tv fs (genSuffixes os ar) os ar
          relsA none with
      | error e => rw [hA] at hl; cases hl
      | ok st1 =>
        rw [hA] at hl
        have hstep : findReleaseAndAssetLoop tv fs (genSuffixes os ar)
            os ar relsB (some (relj, aj, vj)) = .ok (some (r, a, v)) := by
          unfold findReleaseAndAssetLoop at hl
          rw [hj] at hl
          cases st1 with
          | none => exact hl
          | some q1 =>
            rcases q1 with ⟨r1, a1, v1⟩
            rcases loop_state_src hA with h1 | ⟨r2, a2, v2, h1, h2, h3⟩
            · cases h1
            · have hv : v1 = v2 := congrArg (fun p => p.2.2) (Option.some.inj h1)
              have hgte : semverGTE vj v1 = true := by
                rw [hv]
                exact (isVersionUB_iff.mp hmax) r2
                  (List.mem_append.mpr (Or.inl h2)) a2 v2 h3
              simp only [hgte, if_true] at hl
              exact hl
        have hnorep : ∀ rel ∈ relsB, ∀ a' v',
            findAssetFromRelease rel (genSuffixes os ar) tv fs =
              .ok (a', v') → semverGTE v' vj = false := by
          intro rel hm a' v' h'
          cases hb : semverGTE v' vj with
          | false => rfl
          | true =>
            have hba : semverGTE vj v' = true :=
              (isVersionUB_iff.mp hmax) rel
                (List.mem_append.mpr (Or.inr (List.mem_cons_of_mem _ hm)))
                a' v' h'
            exact absurd (semverGTE_antisymm hb hba)
              ((noVersionTie_iff.mp hlast) rel hm a' v' h')
        have hfin := loop_no_replace hnorep hstep
        have h4 := Option.some.inj hfin
        exact ⟨congrArg Prod.fst h4, congrArg (fun p => p.2.1) h4,
          congrArg (fun p => p.2.2) h4⟩

/-- C2 witness: two releases with equal maximal version `1.0.0`; the
amended theorem applies and the later one is returned. -/
theorem claim2_witness :
    findAssetFromRelease relGood (genSuffixes lin amd) [] [] =
      .ok (sampleAsset, v100) ∧
      isVersionUB v100 ([relGood2] ++ relGood :: []) (genSuffixes lin amd)
        [] [] = true ∧
      findReleaseAndAsset ([relGood2] ++ relGood :: []) [] [] lin amd =
        .ok (relGood, sampleAsset, v100) ∧
      (relGood = relGood ∧ sampleAsset = sampleAsset ∧ v100 = v100) :=
  ⟨rfl, by decide, rfl,
    claim2_amended_last_tie_wins [] lin amd [] [relGood2] [] relGood
      sampleAsset v100 relGood sampleAsset v100 rfl (by decide) (by decide)
      rfl⟩

/-- C3: when every release of a non-empty list qualifies, the selector
succeeds and the selected release's parsed version is `GTE` every
qualifying version of the list. -/
theorem claim3_greatest_version_selected
    (rels : List RepositoryRelease) (tv os ar : Str) (fs : List Filter)
    (hne : rels ≠ [])
    (hq : allQualify rels (genSuffixes os ar) tv fs = true) :
    ∃ r a v, findReleaseAndAsset rels tv fs os ar = .ok (r, a, v) ∧
      r ∈ rels ∧
      findAssetFromRelease r (genSuffixes os ar) tv fs = .ok (a, v) ∧
      isVersionUB v rels (genSuffixes os ar) tv fs = true := by
  obtain ⟨r, a, v, hl⟩ := loop_all_ok_from_none (allQualify_iff.mp hq) hne
  rcases loop_state_src hl with h1 | ⟨r1, a1, v1, h1, h2, h3⟩
  · cases h1
  · have h4 := Option.some.inj h1
    have hr : r = r1 := congrArg Prod.fst h4
    have ha : a = a1 := congrArg (fun p => p.2.1) h4
    have hv : v = v1 := congrArg (fun p => p.2.2) h4
    subst hr
    subst ha
    subst hv
    refine ⟨r, a, v, ?_, h2, h3, ?_⟩
    · unfold findReleaseAndAsset
      rw [hl]
    · rw [isVersionUB_iff]
      exact (loop_upper_bound hl).2

/-- C3 witness: with qualifying versions `1.2.0` and `1.10.0` the
selector picks `1.10.0` — numeric, not lexicographic, comparison. -/
theorem claim3_witness :
    ([rel120, rel1100] ≠ ([] : List RepositoryRelease)) ∧
      allQualify [rel120, rel1100] (genSuffixes lin amd) [] [] = true ∧
      (∃ r a v, findReleaseAndAsset [rel120, rel1100] [] [] lin amd =
          .ok (r, a, v) ∧
        r ∈ [rel120, rel1100] ∧
        findAssetFromRelease r (genSuffixes lin amd) [] [] = .ok (a, v) ∧
        isVersionUB v [rel120, rel1100] (genSuffixes lin amd) [] [] = true) ∧
      findReleaseAndAsset [rel120, rel1100] [] [] lin amd =
        .ok (rel1100, sampleAssetB, v1100) :=
  ⟨by decide, by decide,
    claim3_greatest_version_selected [rel120, rel1100] [] lin amd []
      (by decide) (by decide), rfl⟩

/-- C8: with a validator configured, resolution fails when the selected
release has no asset named `assetName ++ suffix`, and otherwise the
returned record's validation-asset identifier is that asset's
identifier. -/
theorem claim8_validation_asset
    (rels : List RepositoryRelease) (version : Str) (fs : List Filter)
    (vsfx os ar ow nm : Str) (rel : RepositoryRelease)
    (asset : ReleaseAsset) (ver : Semver)
    (hsel : findReleaseAndAsset rels version fs os ar = .ok (rel, asset, ver)) :
    ((∀ va ∈ rel.assets, va.name ≠ asset.name ++ vsfx) →
      detectVersionFromReleases rels version fs (some vsfx) os ar ow nm =
        .error (.validationAssetMissing (asset.name ++ vsfx))) ∧
    (∀ va, findValidationAsset rel (asset.name ++ vsfx) = some va →
      ∃ rr, detectVersionFromReleases rels version fs (some vsfx) os ar ow nm =
          .ok rr ∧
        va ∈ rel.assets ∧ va.name = asset.name ++ vsfx ∧
        rr.validationAssetID = va.id) := by
  constructor
  · intro habs
    have hnone : findValidationAsset rel (asset.name ++ vsfx) = none := by
      unfold findValidationAsset
      rw [List.find?_eq_none]
      intro va hm
      simp only [decide_eq_true_eq]
      exact habs va hm
    unfold detectVersionFromReleases
    rw [hsel]
    simp only [hnone]
  · intro va hva
    have hmem : va ∈ rel.assets := List.mem_of_find?_eq_some hva
    have hname : va.name = asset.name ++ vsfx := by
      have := List.find?_some hva
      simpa using this
    have heq : detectVersionFromReleases rels version fs (some vsfx)
        os ar ow nm =
        .ok { version := ver, assetURL := asset.browserDownloadURL,
              assetByteSize := asset.size, assetID := asset.id,
              validationAssetID := va.id, url := rel.htmlURL,
              releaseNotes := rel.body, name := rel.name,
              repoOwner := ow, repoName := nm } := by
      unfold detectVersionFromReleases
      rw [hsel]
      simp only [hva]
    exact ⟨_, heq, hmem, hname, rfl⟩

/-- C8 witness: the same selection once without and once with the
companion `.sha256` asset present. -/
theorem claim8_witness :
    detectVersionFromReleases [relGood] [] [] (some ".sha256".toList)
        lin amd "o".toList "r".toList =
      .error (.validationAssetMissing
        (sampleAsset.name ++ ".sha256".toList)) ∧
      ∃ rr, detectVersionFromReleases [relWithSha] [] []
          (some ".sha256".toList) lin amd "o".toList "r".toList = .ok rr ∧
        shaAsset ∈ relWithSha.assets ∧
        shaAsset.name = sampleAsset.name ++ ".sha256".toList ∧
        rr.validationAssetID = shaAsset.id :=
  ⟨(claim8_validation_asset [relGood] [] [] ".sha256".toList lin amd
      "o".toList "r".toList relGood sampleAsset v100 rfl).1 (by decide),
    (claim8_validation_asset [relWithSha] [] [] ".sha256".toList lin amd
      "o".toList "r".toList relWithSha sampleAsset v100 rfl).2 shaAsset rfl⟩

theorem takeDigits_le_length (s : Str) : takeDigits s ≤ s.length := by
  induction s with
  | nil => exact Nat.le_refl 0
  | cons c cs ih =>
    cases hc : c.isDigit <;> simp [takeDigits, hc] <;> omega

theorem takeDigits_append_of_lt {xs : Str} (ys : Str)
    (h : takeDigits xs < xs.length) :
    takeDigits (xs ++ ys) = takeDigits xs := by
  induction xs with
  | nil => cases h
  | cons c cs ih =>
    cases hc : c.isDigit with
    | true =>
      simp only [takeDigits, hc, if_true, List.length_cons] at h
      simp only [List.cons_append, takeDigits, hc, if_true, List.append_eq]
      rw [ih (by omega)]
    | false =>
      simp [List.cons_append, takeDigits, hc]

theorem takeDigits_concat_lt (q : Str) {c : Char} (hd : c.isDigit = false) :
    takeDigits (q ++ [c]) < (q ++ [c]).length := by
  induction q with
  | nil => simp [takeDigits, hd]
  | cons d ds ih =>
    cases hdd : d.isDigit with
    | true =>
      simp only [List.cons_append, takeDigits, hdd, if_true, List.append_eq,
        List.length_cons]
      omega
    | false =>
      simp only [List.cons_append, takeDigits, hdd, List.length_cons]
      simp

theorem takeDigits_stop {s : Str} (h : takeDigits s < s.length) :
    ∃ d rest, s.drop (takeDigits s) = d :: rest ∧ d.isDigit = false := by
  induction s with
  | nil => cases h
  | cons c cs ih =>
    cases hc : c.isDigit with
    | true =>
      simp only [takeDigits, hc, if_true, List.length_cons] at h
      simp only [takeDigits, hc, if_true, List.drop_succ_cons]
      exact ih (by omega)
    | false =>
      refine ⟨c, cs, ?_, hc⟩
      simp [takeDigits, hc]

theorem takeDigits_all_digits {ds : Str} (rest : Str)
    (h : ds.all Char.isDigit = true) :
    takeDigits (ds ++ rest) = ds.length + takeDigits rest := by
  induction ds with
  | nil => simp
  | cons d ds' ih =>
    rw [List.all_cons, Bool.and_eq_true] at h
    simp only [List.cons_append, takeDigits, h.1, if_true, List.append_eq,
      List.length_cons]
    rw [ih h.2]
    omega

theorem takeDigits_nodigit_head {rest : Str}
    (h : rest = [] ∨ ∃ t ts, rest = t :: ts ∧ t.isDigit = false) :
    takeDigits rest = 0 := by
  rcases h with h | ⟨t, ts, h, ht⟩
  · subst h; rfl
  · subst h; simp [takeDigits, ht]

theorem dotDigits_boundary (q0 : Str) (c : Char) (v' : Str)
    (hd : c.isDigit = false) (hc : c ≠ '.') :
    (dotDigits ((q0 ++ [c]) ++ v') = none ∧ dotDigits (q0 ++ [c]) = none) ∨
    (∃ n r0, dotDigits ((q0 ++ [c]) ++ v') = some (n, (r0 ++ [c]) ++ v') ∧
      dotDigits (q0 ++ [c]) = some (n, r0 ++ [c])) := by
  cases q0 with
  | nil =>
    left
    constructor
    · simp only [List.nil_append, List.cons_append, dotDigits]
      rw [if_neg hc]
    · simp only [List.nil_append, dotDigits]
      rw [if_neg hc]
  | cons d q0' =>
    by_cases hdot : d = '.'
    · subst hdot
      have hlt := takeDigits_concat_lt q0' hd
      have htd := takeDigits_append_of_lt v' hlt
      have hle : takeDigits (q0' ++ [c]) ≤ q0'.length := by
        rw [List.length_append, List.length_singleton] at hlt
        omega
      by_cases hz : takeDigits (q0' ++ [c]) = 0
      · left
        constructor
        · simp only [List.cons_append, dotDigits, if_pos rfl]
          rw [htd, if_pos hz]
          simp
        · simp only [List.cons_append, dotDigits, if_pos rfl]
          rw [if_pos hz]
          simp
      · right
        refine ⟨1 + takeDigits (q0' ++ [c]),
          q0'.drop (takeDigits (q0' ++ [c])), ?_, ?_⟩
        · simp only [List.cons_append, dotDigits, if_pos rfl]
          rw [htd, if_neg hz]
          have hdrop : ((q0' ++ [c]) ++ v').drop (takeDigits (q0' ++ [c])) =
              (q0'.drop (takeDigits (q0' ++ [c])) ++ [c]) ++ v' := by
            rw [List.drop_append_of_le_length
              (by rw [List.length_append]; omega),
              List.drop_append_of_le_length hle]
          rw [hdrop]
          simp
        · simp only [List.cons_append, dotDigits, if_pos rfl]
          rw [if_neg hz, List.drop_append_of_le_length hle]
          simp
    · left
      constructor <;>
        · simp only [List.cons_append, dotDigits]
          rw [if_neg hdot]

theorem matchTripleAt_boundary (q0 : Str) (c : Char) (v' : Str)
    (hd : c.isDigit = false) (hc : c ≠ '.') :
    matchTripleAt ((q0 ++ [c]) ++ v') = matchTripleAt (q0 ++ [c]) := by
  have hlt := takeDigits_concat_lt q0 hd
  have htd := takeDigits_append_of_lt v' hlt
  have hle : takeDigits (q0 ++ [c]) ≤ q0.length := by
    rw [List.length_append, List.length_singleton] at hlt
    omega
  unfold matchTripleAt
  rw [htd]
  by_cases hz : takeDigits (q0 ++ [c]) = 0
  · rw [if_pos hz, if_pos hz]
  · rw [if_neg hz, if_neg hz]
    have hdrop : ((q0 ++ [c]) ++ v').drop (takeDigits (q0 ++ [c])) =
        (q0.drop (takeDigits (q0 ++ [c])) ++ [c]) ++ v' := by
      rw [List.drop_append_of_le_length (by rw [List.length_append]; omega),
        List.drop_append_of_le_length hle]
    have hdrop2 : (q0 ++ [c]).drop (takeDigits (q0 ++ [c])) =
        q0.drop (takeDigits (q0 ++ [c])) ++ [c] :=
      List.drop_append_of_le_length hle
    rw [hdrop, hdrop2]
    rcases dotDigits_boundary (q0.drop (takeDigits (q0 ++ [c]))) c v' hd hc
      with ⟨h1, h2⟩ | ⟨n, r0, h1, h2⟩
    · rw [h1, h2]
    · simp only [h1, h2]
      rcases dotDigits_boundary r0 c v' hd hc
        with ⟨g1, g2⟩ | ⟨m, r1, g1, g2⟩
      · rw [g1, g2]
      · simp only [g1, g2]

theorem findTriple_none {s : Str} (h : findTriple s = none) :
    ∀ i, matchTripleAt (s.drop i) = none := by
  induction s with
  | nil =>
    intro i
    rw [List.drop_nil]
    rfl
  | cons c rest ih =>
    intro i
    unfold findTriple at h
    cases hm : matchTripleAt (c :: rest) with
    | some l => rw [hm] at h; cases h
    | none =>
      rw [hm] at h
      cases hf : findTriple rest with
      | some p => rw [hf] at h; cases h
      | none =>
        cases i with
        | zero => exact hm
        | succ j => exact ih hf j

theorem findTriple_at {k : Nat} :
    ∀ {s : Str} {l : Nat}, (∀ i, i < k → matchTripleAt (s.drop i) = none) →
      matchTripleAt (s.drop k) = some l → findTriple s = some (k, l) := by
  induction k with
  | zero =>
    intro s l _ h2
    rw [List.drop_zero] at h2
    cases s with
    | nil => cases h2
    | cons c rest =>
      unfold findTriple
      rw [h2]
  | succ j ih =>
    intro s l h1 h2
    cases s with
    | nil => rw [List.drop_nil] at h2; cases h2
    | cons c rest =>
      unfold findTriple
      have h0 : matchTripleAt (c :: rest) = none := by
        have := h1 0 (Nat.succ_pos j)
        rwa [List.drop_zero] at this
      rw [h0]
      have hrest : findTriple rest = some (j, l) :=
        ih (fun i hi => h1 (i + 1) (Nat.succ_lt_succ hi)) h2
      rw [hrest]

theorem splitFirst_eq {sep : Char} :
    ∀ {s a b : Str}, splitFirst sep s = some (a, b) →
      s = a ++ sep :: b ∧ sep ∉ a := by
  intro s
  induction s with
  | nil => intro a b h; cases h
  | cons c r ih =>
    intro a b h
    unfold splitFirst at h
    by_cases hc : c = sep
    · rw [if_pos hc] at h
      obtain ⟨ha, hb⟩ := Prod.mk.injEq .. ▸ Option.some.inj h
      subst hc
      refine ⟨?_, ?_⟩
      · rw [← ha, ← hb]
        rfl
      · rw [← ha]
        exact List.not_mem_nil _
    · rw [if_neg hc] at h
      cases hsp : splitFirst sep r with
      | none => rw [hsp] at h; cases h
      | some p =>
        rcases p with ⟨a', b'⟩
        rw [hsp] at h
        obtain ⟨ha, hb⟩ := Prod.mk.injEq .. ▸ Option.some.inj h
        obtain ⟨hr, hmem⟩ := ih hsp
        subst hb
        refine ⟨?_, ?_⟩
        · rw [← ha, hr]
          rfl
        · rw [← ha]
          intro hm
          rcases List.mem_cons.mp hm with h1 | h1
          · exact hc h1.symm
          · exact hmem h1

theorem parseMainNum_shape {s : Str} {n : Nat} (h : parseMainNum s = some n) :
    s ≠ [] ∧ s.all Char.isDigit = true := by
  unfold parseMainNum at h
  by_cases h1 : onlyDigits s
  · rw [if_neg (by simp [h1])] at h
    by_cases h2 : hasLeadingZeroes s = true
    · rw [if_pos h2] at h; cases h
    · rw [if_neg h2] at h
      by_cases h3 : s = []
      · rw [if_pos h3] at h; cases h
      · exact ⟨h3, h1⟩
  · rw [if_pos (by simp [h1])] at h
    cases h

/-- A successfully parsed version string decomposes as
`major "." minor "." patch tail` with the three components non-empty
digit strings and the tail empty or starting with `-` or `+`. -/
theorem semverMake_core {v : Str} {ver : Semver} (hv : semverMake v = some ver) :
    ∃ ms r1 ns r2 ps tl,
      v = ms ++ '.' :: r1 ∧ r1 = ns ++ '.' :: r2 ∧ r2 = ps ++ tl ∧
      ms ≠ [] ∧ ms.all Char.isDigit = true ∧
      ns ≠ [] ∧ ns.all Char.isDigit = true ∧
      ps ≠ [] ∧ ps.all Char.isDigit = true ∧
      (tl = [] ∨ ∃ t ts, tl = t :: ts ∧ t.isDigit = false) := by
  unfold semverMake at hv
  by_cases hv0 : v = []
  · rw [if_pos hv0] at hv; cases hv
  rw [if_neg hv0] at hv
  cases hs1 : splitFirst '.' v with
  | none => simp only [hs1] at hv; cases hv
  | some p1 =>
    rcases p1 with ⟨ms, r1⟩
    simp only [hs1] at hv
    cases hs2 : splitFirst '.' r1 with
    | none => simp only [hs2] at hv; cases hv
    | some p2 =>
      rcases p2 with ⟨ns, r2⟩
      simp only [hs2] at hv
      cases hm1 : parseMainNum ms with
      | none => simp only [hm1] at hv; cases hv
      | some major =>
        cases hm2 : parseMainNum ns with
        | none => simp only [hm1, hm2] at hv; cases hv
        | some minor =>
          simp only [hm1, hm2] at hv
          obtain ⟨hmaj1, hmaj2⟩ := parseMainNum_shape hm1
          obtain ⟨hmin1, hmin2⟩ := parseMainNum_shape hm2
          cases hsp : splitFirst '+' r2 with
          | none =>
            simp only [hsp] at hv
            cases hsd : splitFirst '-' r2 with
            | none =>
              simp only [hsd] at hv
              cases hm3 : parseMainNum r2 with
              | none => simp only [hm3] at hv; cases hv
              | some patch =>
                obtain ⟨hp1, hp2⟩ := parseMainNum_shape hm3
                exact ⟨ms, r1, ns, r2, r2, [],
                  (splitFirst_eq hs1).1, (splitFirst_eq hs2).1,
                  (List.append_nil r2).symm, hmaj1, hmaj2, hmin1, hmin2,
                  hp1, hp2, Or.inl rfl⟩
            | some pd =>
              rcases pd with ⟨ps, preRest⟩
              simp only [hsd] at hv
              cases hm3 : parseMainNum ps with
              | none => simp only [hm3] at hv; cases hv
              | some patch =>
                obtain ⟨hp1, hp2⟩ := parseMainNum_shape hm3
                exact ⟨ms, r1, ns, r2, ps, '-' :: preRest,
                  (splitFirst_eq hs1).1, (splitFirst_eq hs2).1,
                  (splitFirst_eq hsd).1, hmaj1, hmaj2, hmin1, hmin2,
                  hp1, hp2, Or.inr ⟨'-', preRest, rfl, by decide⟩⟩
          | some pb =>
            rcases pb with ⟨beforePlus, buildRest⟩
            simp only [hsp] at hv
            cases hsd : splitFirst '-' beforePlus with
            | none =>
              simp only [hsd] at hv
              cases hm3 : parseMainNum beforePlus with
              | none => simp only [hm3] at hv; cases hv
              | some patch =>
                obtain ⟨hp1, hp2⟩ := parseMainNum_shape hm3
                exact ⟨ms, r1, ns, r2, beforePlus, '+' :: buildRest,
                  (splitFirst_eq hs1).1, (splitFirst_eq hs2).1,
                  (splitFirst_eq hsp).1, hmaj1, hmaj2, hmin1, hmin2,
                  hp1, hp2, Or.inr ⟨'+', buildRest, rfl, by decide⟩⟩
            | some pd =>
              rcases pd with ⟨ps, preRest⟩
              simp only [hsd] at hv
              cases hm3 : parseMainNum ps with
              | none => simp only [hm3] at hv; cases hv
              | some patch =>
                obtain ⟨hp1, hp2⟩ := parseMainNum_shape hm3
                refine ⟨ms, r1, ns, r2, ps, '-' :: (preRest ++ '+' :: buildRest),
                  (splitFirst_eq hs1).1, (splitFirst_eq hs2).1, ?_,
                  hmaj1, hmaj2, hmin1, hmin2,
                  hp1, hp2, Or.inr ⟨'-', preRest ++ '+' :: buildRest, rfl, by decide⟩⟩
                rw [(splitFirst_eq hsp).1, (splitFirst_eq hsd).1]
                simp

/-- A successfully parsed version string begins with a
`\d+\.\d+\.\d+` match. -/
theorem matchTripleAt_of_semverMake {v : Str} {ver : Semver}
    (hv : semverMake v = some ver) : ∃ l, matchTripleAt v = some l := by
  obtain ⟨ms, r1, ns, r2, ps, tl, hv1, hr1, hr2, hm1, hm2, hn1, hn2,
    hp1, hp2, htl⟩ := semverMake_core hv
  have hdot : takeDigits ('.' :: r1) = 0 := by
    simp [takeDigits]
  have hdot2 : takeDigits ('.' :: r2) = 0 := by
    simp [takeDigits]
  have ht1 : takeDigits v = ms.length := by
    rw [hv1, takeDigits_all_digits _ hm2, hdot]
    omega
  have ht2 : takeDigits r1 = ns.length := by
    rw [hr1, takeDigits_all_digits _ hn2, hdot2]
    omega
  have ht3 : takeDigits r2 = ps.length := by
    rw [hr2, takeDigits_all_digits _ hp2, takeDigits_nodigit_head htl]
    omega
  have hlen1 : ms.length ≠ 0 := fun h => hm1 (List.eq_nil_of_length_eq_zero h)
  have hlen2 : ns.length ≠ 0 := fun h => hn1 (List.eq_nil_of_length_eq_zero h)
  have hlen3 : ps.length ≠ 0 := fun h => hp1 (List.eq_nil_of_length_eq_zero h)
  have hd1 : v.drop ms.length = '.' :: r1 := by
    rw [hv1, List.drop_left]
  have hd2 : r1.drop ns.length = '.' :: r2 := by
    rw [hr1, List.drop_left]
  refine ⟨ms.length + (1 + ns.length) + (1 + ps.length), ?_⟩
  unfold matchTripleAt
  rw [ht1, if_neg hlen1, hd1]
  have hdd1 : dotDigits ('.' :: r1) = some (1 + ns.length, '.' :: r2) := by
    simp only [dotDigits]
    rw [if_pos trivial]
    simp only [ht2]
    rw [if_neg hlen2, hd2]
  have hdd2 : dotDigits ('.' :: r2) = some (1 + ps.length, r2.drop ps.length) := by
    simp only [dotDigits]
    rw [if_pos trivial]
    simp only [ht3]
    rw [if_neg hlen3]
  simp only [hdd1, hdd2]

/-- C6 counterexample: the leading prefix `v1` contains no
`\d+\.\d+\.\d+` substring, yet prefixing it to the valid version
`2.3.4` yields the tag `v12.3.4`, which the Version Parser reads as
`12.3.4` — a different version from parsing `2.3.4` directly. -/
theorem claim6_counterexample :
    findTriple "v1".toList = none ∧
      "v1".toList ++ "2.3.4".toList = "v12.3.4".toList ∧
      semverMake "2.3.4".toList = some ⟨2, 3, 4, [], []⟩ ∧
      parseTagVersion "v12.3.4".toList = some ⟨12, 3, 4, [], []⟩ ∧
      parseTagVersion "v12.3.4".toList ≠ parseTagVersion "2.3.4".toList :=
  ⟨rfl, rfl, rfl, rfl, by decide⟩

/-- C6 (amended): if the prefix contains no `\d+\.\d+\.\d+` substring
AND ends in a character that is neither a digit nor a dot (so that the
regular-expression match cannot straddle the boundary), then parsing the
prefixed tag succeeds and yields exactly the version parsed from the
bare version string. -/
theorem claim6_amended_prefix_stripping (p v : Str) (ver : Semver)
    (hnp : findTriple p = none)
    (hlast : ∀ c, p.getLast? = some c → c.isDigit = false ∧ c ≠ '.')
    (hv : semverMake v = some ver) :
    parseTagVersion (p ++ v) = some ver ∧ parseTagVersion v = some ver := by
  obtain ⟨l, hm⟩ := matchTripleAt_of_semverMake hv
  have hpv : parseTagVersion v = some ver := by
    have hft : findTriple v = some (0, l) :=
      findTriple_at (fun i hi => absurd hi (Nat.not_lt_zero i))
        (by rwa [List.drop_zero])
    unfold parseTagVersion
    simp only [hft]
    rw [List.drop_zero]
    exact hv
  refine ⟨?_, hpv⟩
  rcases List.eq_nil_or_concat p with hp0 | ⟨p0, c, hp⟩
  · subst hp0
    rw [List.nil_append]
    exact hpv
  · rw [List.concat_eq_append] at hp
    subst hp
    obtain ⟨hcd, hcdot⟩ := hlast c (List.getLast?_concat p0)
    have hnone : ∀ i, i < (p0 ++ [c]).length →
        matchTripleAt (((p0 ++ [c]) ++ v).drop i) = none := by
      intro i hi
      rw [List.drop_append_of_le_length (Nat.le_of_lt hi)]
      have hi0 : i ≤ p0.length := by
        rw [List.length_append, List.length_singleton] at hi
        omega
      rw [List.drop_append_of_le_length hi0]
      rw [matchTripleAt_boundary (p0.drop i) c v hcd hcdot]
      rw [← List.drop_append_of_le_length hi0]
      exact findTriple_none hnp i
    have hk : matchTripleAt (((p0 ++ [c]) ++ v).drop (p0 ++ [c]).length) =
        some l := by
      rw [List.drop_left]
      exact hm
    have hft := findTriple_at hnone hk
    unfold parseTagVersion
    simp only [hft]
    rw [List.drop_left]
    exact hv

/-- C6 witness: the prefix `app-v` (no version substring, ends in a
letter) prefixed to `1.2.3-beta.1+build5` parses to the same version as
the bare string. -/
theorem claim6_witness :
    findTriple "app-v".toList = none ∧
      parseTagVersion ("app-v".toList ++ "1.2.3-beta.1+build5".toList) =
        some ⟨1, 2, 3, [.str "beta".toList, .num 1], ["build5".toList]⟩ ∧
      parseTagVersion "1.2.3-beta.1+build5".toList =
        some ⟨1, 2, 3, [.str "beta".toList, .num 1], ["build5".toList]⟩ := by
  have h := claim6_amended_prefix_stripping "app-v".toList
    "1.2.3-beta.1+build5".toList
    ⟨1, 2, 3, [.str "beta".toList, .num 1], ["build5".toList]⟩
    rfl
    (by
      intro c hc
      rw [show "app-v".toList.getLast? = some 'v' from rfl] at hc
      cases hc
      exact ⟨by decide, by decide⟩)
    rfl
  exact ⟨rfl, h.1, h.2⟩

end SelfUpdate
